import Mathlib

/-!
Verification of the leafless block storage repository.

Shallow embedding of the two source files:
- src/leafless/src/encoding.rs : variable-length integer codec for u64
  (Encoder::encode_u64, Decoder::decode_u64).
- src/leafless/src/block_storage.rs : block storage manager
  (BlockStorage with create/open/claimBlock/writeBlockOffset/readBlockOffset
  and the helpers flushMeta/writeFlush/readData).

Bytes are modelled as Nat (every byte value produced or consumed by the code
is < 256); a file is a List Nat of its byte contents.  u64 arithmetic is
modelled on Nat; the points where the Rust arithmetic would overflow a u64
(and therefore panic in a default, overflow-checked build, never producing a
result) are modelled as Option.none ("panic") guards, written with explicit
2 ^ 64 bounds.  The I/O layer is the success path: an I/O failure aborts the
operation, so claims about successful operations quantify over these total
functions.
-/

set_option maxRecDepth 2000

namespace Leafless

/-! ### Variable-length integer codec (src/leafless/src/encoding.rs) -/

/-- One iteration budget of the `for _ in 0..8` loop of `Encoder::encode_u64`.
At fuel 0 the loop has run 8 times; if the remaining value is nonzero the
code emits one raw trailing byte `(value & 0xFF)`.  Inside the loop the byte
is the low 7 bits of the value, the value is shifted right by 7 (the mask
with `SEVEN_BYTES_ONE_BIT` before the shift only clears bits that the shift
discards, so it is `value / 128`), and the `HAS_NEXT` high bit is set on the
byte exactly when the shifted value is nonzero, in which case the loop
continues. -/
def encGo : Nat → Nat → List Nat
  | 0, value => if value = 0 then [] else [value % 256]
  | fuel + 1, value =>
    if value / 128 = 0 then [value % 128]
    else (value % 128 + 128) :: encGo fuel (value / 128)

/-- `Encoder::encode_u64`: the loop runs at most 8 times. -/
def Encoder.encode_u64 (value : Nat) : List Nat :=
  encGo 8 value

/-- One iteration budget of the `for i in 0..8` loop of `Decoder::decode_u64`,
carrying the current shift `7 * i` and the accumulator.  A byte contributes
its low 7 bits at the current shift; the loop returns as soon as a byte
without the `HAS_NEXT` bit (bit 7) is met or the input runs out.  At fuel 0
(after 8 continuation bytes) a present 9th byte is added raw at shift 56 and
the remaining input is left in the deque. -/
def decGo : Nat → Nat → Nat → List Nat → Nat × List Nat
  | 0, _, acc, [] => (acc, [])
  | 0, _, acc, b :: rest => (acc + b * 2 ^ 56, rest)
  | _ + 1, _, acc, [] => (acc, [])
  | fuel + 1, shift, acc, b :: rest =>
    if b / 128 % 2 = 1 then decGo fuel (shift + 7) (acc + b % 128 * 2 ^ shift) rest
    else (acc + b % 128 * 2 ^ shift, rest)

/-- `Decoder::decode_u64`: returns the decoded value and the bytes left in
the deque after the consumed prefix. -/
def Decoder.decode_u64 (data : List Nat) : Nat × List Nat :=
  decGo 8 0 0 data

/-! #### Codec lemmas -/

/-- Round trip of the two loops, aligned on the same fuel: decoding the
encoder's output (followed by any leftover bytes) adds the encoded value at
the current shift position and consumes exactly the encoder's bytes.  The
shift of a call at a given fuel is `7 * (8 - fuel)`. -/
theorem decGo_encGo (fuel : Nat) : ∀ (v acc : Nat) (rest : List Nat),
    fuel ≤ 8 → v < 2 ^ (7 * fuel + 8) → (v ≠ 0 ∨ fuel = 8) →
    decGo fuel (7 * (8 - fuel)) acc (encGo fuel v ++ rest) =
      (acc + v * 2 ^ (7 * (8 - fuel)), rest) := by
  induction fuel with
  | zero =>
    intro v acc rest _ hv hne
    have hv0 : v ≠ 0 := by
      rcases hne with h | h
      · exact h
      · omega
    have hmod : v % 256 = v := Nat.mod_eq_of_lt (by simpa using hv)
    simp [encGo, decGo, hv0, hmod]
  | succ fuel ih =>
    intro v acc rest hfuel hv _
    by_cases hdiv : v / 128 = 0
    · have hvlt : v < 128 := by
        rcases Nat.lt_or_ge v 128 with h | h
        · exact h
        · exact absurd hdiv (by
            have : 1 ≤ v / 128 := Nat.one_le_div_iff (by norm_num) |>.mpr h
            omega)
      have hmod : v % 128 = v := Nat.mod_eq_of_lt hvlt
      have hflag : v / 128 % 2 = 1 ↔ False := by simp [hdiv]
      simp [encGo, hdiv, decGo, hflag, hmod]
    · have hflag : (v % 128 + 128) / 128 % 2 = 1 := by
        have : (v % 128 + 128) / 128 = 1 := by
          have h1 : v % 128 < 128 := Nat.mod_lt _ (by norm_num)
          omega
        simp [this]
      have hbyte : (v % 128 + 128) % 128 = v % 128 := by
        simp [Nat.add_mod]
      have hstep : 7 * (8 - (fuel + 1)) + 7 = 7 * (8 - fuel) := by omega
      have hrec := ih (v / 128) (acc + v % 128 * 2 ^ (7 * (8 - (fuel + 1)))) rest
        (by omega)
        (by
          have h128 : (128 : Nat) = 2 ^ 7 := by norm_num
          have := Nat.div_lt_iff_lt_mul (show 0 < 128 by norm_num)
            |>.mpr (show v < 2 ^ (7 * fuel + 8) * 128 by
              calc v < 2 ^ (7 * (fuel + 1) + 8) := hv
                _ = 2 ^ (7 * fuel + 8) * 128 := by rw [h128, ← pow_add]; ring_nf
            )
          exact this)
        (Or.inl hdiv)
      simp only [encGo, hdiv, if_neg hdiv, List.cons_append, decGo, hflag, if_pos rfl,
        hbyte, if_true, List.append_eq]
      rw [hstep, hrec]
      congr 1
      have hsplit : v = 128 * (v / 128) + v % 128 := (Nat.div_add_mod v 128).symm
      have hpow : (2 : Nat) ^ (7 * (8 - fuel)) = 2 ^ (7 * (8 - (fuel + 1))) * 128 := by
        rw [← hstep, pow_add]; norm_num
      calc acc + v % 128 * 2 ^ (7 * (8 - (fuel + 1))) + v / 128 * 2 ^ (7 * (8 - fuel))
          = acc + (v % 128 + 128 * (v / 128)) * 2 ^ (7 * (8 - (fuel + 1))) := by
            rw [hpow]; ring
        _ = acc + v * 2 ^ (7 * (8 - (fuel + 1))) := by
            congr 2
            omega

/-- Decoding the encoding of any u64 value, with arbitrary trailing bytes,
yields the value and leaves exactly the trailing bytes. -/
theorem decode_encode_append (v : Nat) (rest : List Nat) (hv : v < 2 ^ 64) :
    Decoder.decode_u64 (Encoder.encode_u64 v ++ rest) = (v, rest) := by
  have h := decGo_encGo 8 v 0 rest (le_refl 8) (by simpa using hv) (Or.inr rfl)
  simpa [Decoder.decode_u64, Encoder.encode_u64] using h

/-- The encoder loop emits at most one byte per unit of fuel plus the one raw
trailing byte. -/
theorem encGo_length_le (fuel : Nat) : ∀ v : Nat, (encGo fuel v).length ≤ fuel + 1 := by
  induction fuel with
  | zero =>
    intro v
    by_cases h : v = 0 <;> simp [encGo, h]
  | succ fuel ih =>
    intro v
    by_cases h : v / 128 = 0
    · simp [encGo, h]
    · simp only [encGo, if_neg h, List.length_cons]
      have := ih (v / 128)
      omega

/-- The encoder always emits at least one byte when it has loop fuel left. -/
theorem encGo_length_pos (fuel v : Nat) : 1 ≤ (encGo (fuel + 1) v).length := by
  by_cases h : v / 128 = 0 <;> simp [encGo, h]

/-- The encoded length is monotone in the value, at every fuel. -/
theorem encGo_length_mono (fuel : Nat) : ∀ v w : Nat, v ≤ w →
    (encGo fuel v).length ≤ (encGo fuel w).length := by
  induction fuel with
  | zero =>
    intro v w hvw
    by_cases hv : v = 0
    · simp [encGo, hv]
    · have hw : w ≠ 0 := by omega
      simp [encGo, hv, hw]
  | succ fuel ih =>
    intro v w hvw
    by_cases hv : v / 128 = 0
    · have h1 : (encGo (fuel + 1) v).length = 1 := by simp [encGo, hv]
      rw [h1]
      exact encGo_length_pos fuel w
    · have hw : w / 128 ≠ 0 := by
        have := Nat.div_le_div_right (c := 128) hvw
        omega
      simp only [encGo, if_neg hv, if_neg hw, List.length_cons, Nat.add_le_add_iff_right]
      exact ih _ _ (Nat.div_le_div_right hvw)

/-- Values below 128 encode to exactly one byte. -/
theorem encode_length_eq_one (v : Nat) (hv : v < 128) :
    (Encoder.encode_u64 v).length = 1 := by
  have h : v / 128 = 0 := Nat.div_eq_of_lt hv
  simp [Encoder.encode_u64, encGo, h]

/-- Every encoding has at least one byte. -/
theorem encode_length_pos (v : Nat) : 1 ≤ (Encoder.encode_u64 v).length :=
  encGo_length_pos 7 v

/-- Every encoding has at most nine bytes. -/
theorem encode_length_le_nine (v : Nat) : (Encoder.encode_u64 v).length ≤ 9 :=
  encGo_length_le 8 v

/-- Encoded length is monotone in the value. -/
theorem encode_length_mono (v w : Nat) (hvw : v ≤ w) :
    (Encoder.encode_u64 v).length ≤ (Encoder.encode_u64 w).length :=
  encGo_length_mono 8 v w hvw

/-! ### File model

The manager's `fs::File` is modelled by its byte contents, a `List Nat`.
The three file-system effects the source uses are seek+`write_all`+`flush`
(`writeFlush`), `set_len`, and seek plus the short-read loop of `readData`. -/

/-- Seek to `pos` and write `data` (POSIX: seeking past end of file and
writing fills the gap with zero bytes). -/
def fileWrite (f : List Nat) (pos : Nat) (data : List Nat) : List Nat :=
  f.take pos ++ List.replicate (pos - f.length) 0 ++ data ++ f.drop (pos + data.length)

/-- `File::set_len`: truncate or zero-extend to exactly `n` bytes. -/
def fileSetLen (f : List Nat) (n : Nat) : List Nat :=
  f.take n ++ List.replicate (n - f.length) 0

/-- The `readData` loop: a buffer of exactly `len` bytes, filled from
position `pos` until end of file, the tail beyond end of file keeping its
zero initialisation. -/
def fileRead (f : List Nat) (pos len : Nat) : List Nat :=
  (f.drop pos).take len ++ List.replicate (len - (f.drop pos).length) 0

/-! #### Pointwise lemmas for the file model -/

/-- Indexing an append, with default 0. -/
theorem getD_append (l₁ l₂ : List Nat) : ∀ i : Nat,
    (l₁ ++ l₂).getD i 0 = if i < l₁.length then l₁.getD i 0 else l₂.getD (i - l₁.length) 0 := by
  induction l₁ with
  | nil => intro i; simp
  | cons a t ih =>
    intro i
    cases i with
    | zero => simp
    | succ i => simpa using ih i

/-- Indexing a take, with default 0. -/
theorem getD_take (l : List Nat) : ∀ n i : Nat,
    (l.take n).getD i 0 = if i < n then l.getD i 0 else 0 := by
  induction l with
  | nil => intro n i; simp
  | cons a t ih =>
    intro n i
    cases n with
    | zero => simp
    | succ n =>
      cases i with
      | zero => simp
      | succ i =>
        simp only [List.take_succ_cons, List.getD_cons_succ, ih n i]
        by_cases h : i < n
        · rw [if_pos h, if_pos (by omega)]
        · rw [if_neg h, if_neg (by omega)]

/-- Indexing a drop, with default 0. -/
theorem getD_drop (l : List Nat) : ∀ n i : Nat, (l.drop n).getD i 0 = l.getD (n + i) 0 := by
  induction l with
  | nil => intro n i; simp
  | cons a t ih =>
    intro n i
    cases n with
    | zero => simp
    | succ n =>
      have : n + 1 + i = n + i + 1 := by omega
      simp only [List.drop_succ_cons, ih n i, this, List.getD_cons_succ]

/-- Indexing a replicate of zeros, with default 0. -/
theorem getD_replicate_zero (n i : Nat) : (List.replicate n (0 : Nat)).getD i 0 = 0 := by
  rcases Nat.lt_or_ge i n with h | h
  · rw [List.getD_eq_getElem _ _ (by simpa using h)]
    simp
  · exact List.getD_eq_default _ _ (by simpa using h)

/-- Two lists with the same length and the same entries (default 0) are
equal. -/
theorem list_eq_of_getD (l₁ l₂ : List Nat) (hlen : l₁.length = l₂.length)
    (h : ∀ i, i < l₁.length → l₁.getD i 0 = l₂.getD i 0) : l₁ = l₂ := by
  refine List.ext_getElem hlen ?_
  intro i h₁ h₂
  have := h i h₁
  rwa [List.getD_eq_getElem _ _ h₁, List.getD_eq_getElem _ _ h₂] at this

theorem fileWrite_length (f : List Nat) (pos : Nat) (data : List Nat) :
    (fileWrite f pos data).length = max f.length (pos + data.length) := by
  simp only [fileWrite, List.length_append, List.length_take, List.length_replicate,
    List.length_drop]
  omega

theorem fileWrite_getD (f : List Nat) (pos : Nat) (data : List Nat) (i : Nat) :
    (fileWrite f pos data).getD i 0 =
      if pos ≤ i ∧ i < pos + data.length then data.getD (i - pos) 0 else f.getD i 0 := by
  simp only [fileWrite, getD_append, getD_take, getD_drop, getD_replicate_zero,
    List.length_append, List.length_take, List.length_replicate]
  rcases Nat.lt_or_ge i pos with hlt | hge
  · rw [if_pos (show i < min pos f.length + (pos - f.length) + data.length by omega),
      if_pos (show i < min pos f.length + (pos - f.length) by omega),
      if_neg (show ¬(pos ≤ i ∧ i < pos + data.length) by omega)]
    rcases Nat.lt_or_ge i f.length with hf | hf
    · rw [if_pos (show i < min pos f.length by omega), if_pos hlt]
    · rw [if_neg (show ¬ i < min pos f.length by omega), List.getD_eq_default _ _ hf]
  · rcases Nat.lt_or_ge i (pos + data.length) with hd | hd
    · rw [if_pos (show i < min pos f.length + (pos - f.length) + data.length by omega),
        if_neg (show ¬ i < min pos f.length + (pos - f.length) by omega),
        if_pos (show pos ≤ i ∧ i < pos + data.length from ⟨hge, hd⟩),
        show i - (min pos f.length + (pos - f.length)) = i - pos from by omega]
    · rw [if_neg (show ¬ i < min pos f.length + (pos - f.length) + data.length by omega),
        if_neg (show ¬(pos ≤ i ∧ i < pos + data.length) by omega),
        show pos + data.length + (i - (min pos f.length + (pos - f.length) + data.length))
          = i from by omega]

theorem fileSetLen_length (f : List Nat) (n : Nat) : (fileSetLen f n).length = n := by
  simp only [fileSetLen, List.length_append, List.length_take, List.length_replicate]
  omega

theorem fileSetLen_getD (f : List Nat) (n i : Nat) :
    (fileSetLen f n).getD i 0 = if i < n then f.getD i 0 else 0 := by
  simp only [fileSetLen, getD_append, getD_take, getD_replicate_zero, List.length_take]
  rcases Nat.lt_or_ge i (min n f.length) with h | h
  · rw [if_pos h]
  · rw [if_neg (by omega)]
    rcases Nat.lt_or_ge i n with h2 | h2
    · rw [if_pos h2, List.getD_eq_default _ _ (by omega)]
    · rw [if_neg (by omega)]

theorem fileRead_length (f : List Nat) (pos len : Nat) :
    (fileRead f pos len).length = len := by
  simp only [fileRead, List.length_append, List.length_take, List.length_replicate,
    List.length_drop]
  omega

theorem fileRead_getD (f : List Nat) (pos len i : Nat) :
    (fileRead f pos len).getD i 0 = if i < len then f.getD (pos + i) 0 else 0 := by
  simp only [fileRead, getD_append, getD_take, getD_drop, getD_replicate_zero,
    List.length_take, List.length_drop]
  rcases Nat.lt_or_ge i (min len (f.length - pos)) with h | h
  · rw [if_pos h]
  · rw [if_neg (by omega)]
    rcases Nat.lt_or_ge i len with h2 | h2
    · rw [if_pos h2, List.getD_eq_default _ _ (by omega)]
    · rw [if_neg (by omega)]

/-! ### Block storage manager (src/leafless/src/block_storage.rs) -/

def BLOCK_SIZE : Nat := 4096

/-- `DataBlock { offset, size }`: a claimed contiguous run, `offset` the
index of its first block and `size` its capacity in bytes. -/
structure DataBlock where
  offset : Nat
  size : Nat
deriving DecidableEq

/-- `BlockStorage { file, meta }`.  `BlockStorageMeta` has the single u64
field `offset` (the next free block index), so it is embedded directly as
the Nat field `meta`; its `serialize` is `Encoder.encode_u64` and its
`deserialize` is `Decoder.decode_u64` on the read block. -/
structure BlockStorage where
  file : List Nat
  meta : Nat
deriving DecidableEq

/-- `BlockStorage::writeFlush`: seek + `write_all` + `flush`. -/
def BlockStorage.writeFlush (s : BlockStorage) (position : Nat) (data : List Nat) :
    BlockStorage :=
  { s with file := fileWrite s.file position data }

/-- `BlockStorage::flushMeta`: write the serialized metadata at position 0. -/
def BlockStorage.flushMeta (s : BlockStorage) : BlockStorage :=
  s.writeFlush 0 (Encoder.encode_u64 s.meta)

/-- `BlockStorage::create`: metadata starts at `offset = 1` and is flushed
immediately. -/
def BlockStorage.create (file : List Nat) : BlockStorage :=
  BlockStorage.flushMeta { file := file, meta := 1 }

/-- `BlockStorage::readData`: the short-read loop over the owned file. -/
def BlockStorage.readData (s : BlockStorage) (position maxLength : Nat) : List Nat :=
  fileRead s.file position maxLength

/-- `BlockStorage::open` (renamed: `open` is reserved in Lean).  The Rust
code builds the storage with `meta.offset = 0`, reads `BLOCK_SIZE` bytes
from position 0 and deserializes them into the metadata; the resulting
state is the file unchanged and the metadata decoded from the first block. -/
def BlockStorage.openStorage (file : List Nat) : BlockStorage :=
  { file := file, meta := (Decoder.decode_u64 (fileRead file 0 BLOCK_SIZE)).1 }

/-- `BlockStorage::claimBlock`: advance the metadata by `count`, `set_len`
the file to the new `meta.offset * BLOCK_SIZE`, flush the metadata, and
return the run starting at the old offset.  `none` models the u64 overflow
panic of `offset += count` / `offset * BLOCK_SIZE` / `count * BLOCK_SIZE`
in an overflow-checked build (the single guard below implies all three
products and sums fit in a u64). -/
def BlockStorage.claimBlock (s : BlockStorage) (count : Nat) :
    Option (BlockStorage × DataBlock) :=
  if (s.meta + count) * BLOCK_SIZE < 2 ^ 64 then
    some (BlockStorage.flushMeta
            { file := fileSetLen s.file ((s.meta + count) * BLOCK_SIZE),
              meta := s.meta + count },
          { offset := s.meta + count - count, size := count * BLOCK_SIZE })
  else none

/-- The error value of the capacity check in `writeBlockOffset`
(`io::ErrorKind::InvalidData`, distinct from any propagated I/O error). -/
inductive WriteError where
  | capacity
deriving DecidableEq

/-- `BlockStorage::writeBlockOffset`: error (state untouched) when
`data.len() + offset > block.size`, otherwise write at
`block.offset * BLOCK_SIZE + offset`.  The two `none` branches model the
u64 overflow panics of `data.len() as u64 + offset` and of the position
computation in an overflow-checked build. -/
def BlockStorage.writeBlockOffset (s : BlockStorage) (block : DataBlock) (offset : Nat)
    (data : List Nat) : Option (Except WriteError Unit × BlockStorage) :=
  if 2 ^ 64 ≤ data.length + offset then none
  else if block.size < data.length + offset then some (Except.error WriteError.capacity, s)
  else if 2 ^ 64 ≤ block.offset * BLOCK_SIZE + offset then none
  else some (Except.ok (), s.writeFlush (block.offset * BLOCK_SIZE + offset) data)

/-- `BlockStorage::writeBlock`: write at offset 0. -/
def BlockStorage.writeBlock (s : BlockStorage) (block : DataBlock) (data : List Nat) :
    Option (Except WriteError Unit × BlockStorage) :=
  s.writeBlockOffset block 0 data

/-- `BlockStorage::readBlockOffset`: no capacity check, just `readData` at
the run-relative position.  `none` models the overflow panic of
`block.offset * BLOCK_SIZE + offset`. -/
def BlockStorage.readBlockOffset (s : BlockStorage) (block : DataBlock)
    (offset maxLength : Nat) : Option (List Nat) :=
  if block.offset * BLOCK_SIZE + offset < 2 ^ 64 then
    some (s.readData (block.offset * BLOCK_SIZE + offset) maxLength)
  else none

/-- `BlockStorage::readBlock`: read the whole run. -/
def BlockStorage.readBlock (s : BlockStorage) (block : DataBlock) : Option (List Nat) :=
  s.readBlockOffset block 0 block.size

/-! ### Reachable manager states -/

/-- Manager states reachable through any sequence of successful create,
open, allocate, write and read operations; open may see any underlying
file contents, and reads do not change the state. -/
inductive ReachableAny : BlockStorage → Prop
  | created (init : List Nat) : ReachableAny (BlockStorage.create init)
  | opened (init : List Nat) : ReachableAny (BlockStorage.openStorage init)
  | allocated {s s' : BlockStorage} {count : Nat} {b : DataBlock} :
      ReachableAny s → s.claimBlock count = some (s', b) → ReachableAny s'
  | written {s s' : BlockStorage} {b : DataBlock} {offset : Nat} {data : List Nat} :
      ReachableAny s → s.writeBlockOffset b offset data = some (Except.ok (), s') →
      ReachableAny s'

/-- Same reachability, with open restricted to files whose metadata block
decodes to a value of at least 1. -/
inductive ReachableGood : BlockStorage → Prop
  | created (init : List Nat) : ReachableGood (BlockStorage.create init)
  | opened (init : List Nat) :
      1 ≤ (Decoder.decode_u64 (fileRead init 0 BLOCK_SIZE)).1 →
      ReachableGood (BlockStorage.openStorage init)
  | allocated {s s' : BlockStorage} {count : Nat} {b : DataBlock} :
      ReachableGood s → s.claimBlock count = some (s', b) → ReachableGood s'
  | written {s s' : BlockStorage} {b : DataBlock} {offset : Nat} {data : List Nat} :
      ReachableGood s → s.writeBlockOffset b offset data = some (Except.ok (), s') →
      ReachableGood s'

/-- Trace of a manager created on an empty file, with the run handles that
allocate has returned so far; a write presents one of those handles back,
as the spec's ownership contract requires (reads do not change the
state). -/
inductive Trace : BlockStorage → List DataBlock → Prop
  | created : Trace (BlockStorage.create []) []
  | allocated {s s' : BlockStorage} {count : Nat} {b : DataBlock} {bs : List DataBlock} :
      Trace s bs → s.claimBlock count = some (s', b) → Trace s' (b :: bs)
  | written {s s' : BlockStorage} {b : DataBlock} {offset : Nat} {data : List Nat}
      {bs : List DataBlock} :
      Trace s bs → b ∈ bs → s.writeBlockOffset b offset data = some (Except.ok (), s') →
      Trace s' bs

/-- Run handles allocate can have handed out at metadata value `meta`: they
start past block 0 and end within the first `meta` blocks. -/
def validBlock (meta : Nat) (b : DataBlock) : Prop :=
  1 ≤ b.offset ∧ b.offset * BLOCK_SIZE + b.size ≤ meta * BLOCK_SIZE

/-- Invariant of a manager created on an empty file: the metadata is at
least 1, every outstanding run handle is valid, and the file is either
still exactly the flushed varint (no allocate yet) or has length
`meta * BLOCK_SIZE` with block 0 holding the varint followed by zeros up
to `BLOCK_SIZE`. -/
def StorageInv (s : BlockStorage) (bs : List DataBlock) : Prop :=
  1 ≤ s.meta ∧ (∀ b ∈ bs, validBlock s.meta b) ∧
    ((s.file = Encoder.encode_u64 s.meta ∧ s.meta = 1 ∧ bs = []) ∨
     (s.file.length = s.meta * BLOCK_SIZE ∧
      (∀ i, i < (Encoder.encode_u64 s.meta).length →
        s.file.getD i 0 = (Encoder.encode_u64 s.meta).getD i 0) ∧
      (∀ i, (Encoder.encode_u64 s.meta).length ≤ i → i < BLOCK_SIZE →
        s.file.getD i 0 = 0)))

/-- Every trace from `create` on an empty file satisfies the storage
invariant. -/
theorem trace_inv {s : BlockStorage} {bs : List DataBlock} (h : Trace s bs) :
    StorageInv s bs := by
  induction h with
  | created =>
    refine ⟨le_refl 1, by simp, Or.inl ⟨?_, rfl, rfl⟩⟩
    show fileWrite [] 0 (Encoder.encode_u64 1) = Encoder.encode_u64 1
    simp [fileWrite]
  | @allocated s₀ s' count b bs₀ htr heq ih =>
    obtain ⟨hm, hblocks, hdisj⟩ := ih
    by_cases hguard : (s₀.meta + count) * BLOCK_SIZE < 2 ^ 64
    case neg =>
      rw [BlockStorage.claimBlock, if_neg hguard] at heq
      exact absurd heq (by simp)
    rw [BlockStorage.claimBlock, if_pos hguard] at heq
    simp only [Option.some.injEq, Prod.mk.injEq] at heq
    obtain ⟨hs', hb⟩ := heq
    subst hs'
    subst hb
    refine ⟨?_, ?_, Or.inr ⟨?_, ?_, ?_⟩⟩
    · simp only [BlockStorage.flushMeta, BlockStorage.writeFlush]
      omega
    · intro b hb
      rcases List.mem_cons.mp hb with hb | hb

      · subst hb
        constructor <;>
          simp only [validBlock, BlockStorage.flushMeta, BlockStorage.writeFlush,
            BLOCK_SIZE] <;> omega
      · have := hblocks b hb
        simp only [validBlock, BLOCK_SIZE] at this ⊢
        simp only [BlockStorage.flushMeta, BlockStorage.writeFlush]
        omega
    · simp only [BlockStorage.flushMeta, BlockStorage.writeFlush]
      rw [fileWrite_length, fileSetLen_length]
      have h9 := encode_length_le_nine (s₀.meta + count)
      simp only [BLOCK_SIZE] at *
      omega
    · intro i hi
      simp only [BlockStorage.flushMeta, BlockStorage.writeFlush] at hi ⊢
      rw [fileWrite_getD, if_pos ⟨Nat.zero_le i, by omega⟩]
      simp
    · intro i h1 h2
      simp only [BlockStorage.flushMeta, BlockStorage.writeFlush] at h1 h2 ⊢
      rw [fileWrite_getD, if_neg (by omega), fileSetLen_getD,
        if_pos (show i < (s₀.meta + count) * BLOCK_SIZE from by
          simp only [BLOCK_SIZE] at h2 ⊢
          omega)]
      rcases hdisj with ⟨hfile, hm1, -⟩ | ⟨hlen, hpre, hzero⟩
      · rw [hfile]
        refine List.getD_eq_default _ _ ?_
        have hp := encode_length_pos (s₀.meta + count)
        have hlen1 : (Encoder.encode_u64 s₀.meta).length = 1 := by
          rw [hm1]
          exact encode_length_eq_one 1 (by norm_num)
        omega
      · refine hzero i ?_ h2
        have hmono := encode_length_mono s₀.meta (s₀.meta + count) (by omega)
        omega
  | @written s₀ s' b offset data bs₀ htr hmem heq ih =>
    obtain ⟨hm, hblocks, hdisj⟩ := ih
    rcases hdisj with ⟨-, -, hnil⟩ | ⟨hlen, hpre, hzero⟩
    · subst hnil
      exact absurd hmem (List.not_mem_nil _)
    obtain ⟨hboff, hbbound⟩ := hblocks _ hmem
    by_cases hov : 2 ^ 64 ≤ data.length + offset
    case pos =>
      rw [BlockStorage.writeBlockOffset, if_pos hov] at heq
      exact absurd heq (by simp)
    by_cases hcap : b.size < data.length + offset
    case pos =>
      rw [BlockStorage.writeBlockOffset, if_neg hov, if_pos hcap] at heq
      exact absurd heq (by simp)
    by_cases hpos : 2 ^ 64 ≤ b.offset * BLOCK_SIZE + offset
    case pos =>
      rw [BlockStorage.writeBlockOffset, if_neg hov, if_neg hcap, if_pos hpos] at heq
      exact absurd heq (by simp)
    rw [BlockStorage.writeBlockOffset, if_neg hov, if_neg hcap, if_neg hpos] at heq
    simp only [Option.some.injEq, Prod.mk.injEq, true_and] at heq
    subst heq
    have h9 := encode_length_le_nine s₀.meta
    refine ⟨?_, ?_, Or.inr ⟨?_, ?_, ?_⟩⟩
    · simpa [BlockStorage.writeFlush] using hm
    · intro b' hb'
      have := hblocks b' hb'
      simpa [validBlock, BlockStorage.writeFlush] using this
    · simp only [BlockStorage.writeFlush]
      rw [fileWrite_length]
      simp only [BLOCK_SIZE] at hbbound hlen ⊢
      omega
    · intro i hi
      simp only [BlockStorage.writeFlush] at hi ⊢
      rw [fileWrite_getD, if_neg (by
        simp only [BLOCK_SIZE] at hi ⊢
        omega)]
      exact hpre i hi
    · intro i h1 h2
      simp only [BlockStorage.writeFlush] at h1 h2 ⊢
      rw [fileWrite_getD, if_neg (by
        simp only [BLOCK_SIZE] at h2 ⊢
        omega)]
      exact hzero i h1 h2

/-- Characterisation of a successful `claimBlock`. -/
theorem claimBlock_some {s s' : BlockStorage} {count : Nat} {b : DataBlock}
    (heq : s.claimBlock count = some (s', b)) :
    s'.meta = s.meta + count ∧
    s'.file = fileWrite (fileSetLen s.file ((s.meta + count) * BLOCK_SIZE)) 0
      (Encoder.encode_u64 (s.meta + count)) ∧
    b.offset = s.meta ∧ b.size = count * BLOCK_SIZE ∧
    (s.meta + count) * BLOCK_SIZE < 2 ^ 64 := by
  by_cases hguard : (s.meta + count) * BLOCK_SIZE < 2 ^ 64
  · rw [BlockStorage.claimBlock, if_pos hguard] at heq
    simp only [Option.some.injEq, Prod.mk.injEq] at heq
    obtain ⟨hs', hb⟩ := heq
    subst hs'
    subst hb
    exact ⟨rfl, rfl, show s.meta + count - count = s.meta from by omega, rfl, hguard⟩
  · rw [BlockStorage.claimBlock, if_neg hguard] at heq
    exact absurd heq (by simp)

/-- Characterisation of a successful `writeBlockOffset`. -/
theorem writeBlockOffset_ok {s s' : BlockStorage} {b : DataBlock} {offset : Nat}
    {data : List Nat}
    (heq : s.writeBlockOffset b offset data = some (Except.ok (), s')) :
    s'.meta = s.meta ∧
    s'.file = fileWrite s.file (b.offset * BLOCK_SIZE + offset) data ∧
    data.length + offset ≤ b.size := by
  by_cases hov : 2 ^ 64 ≤ data.length + offset
  case pos =>
    rw [BlockStorage.writeBlockOffset, if_pos hov] at heq
    exact absurd heq (by simp)
  by_cases hcap : b.size < data.length + offset
  case pos =>
    rw [BlockStorage.writeBlockOffset, if_neg hov, if_pos hcap] at heq
    exact absurd heq (by simp)
  by_cases hpos : 2 ^ 64 ≤ b.offset * BLOCK_SIZE + offset
  case pos =>
    rw [BlockStorage.writeBlockOffset, if_neg hov, if_neg hcap, if_pos hpos] at heq
    exact absurd heq (by simp)
  rw [BlockStorage.writeBlockOffset, if_neg hov, if_neg hcap, if_neg hpos] at heq
  simp only [Option.some.injEq, Prod.mk.injEq, true_and] at heq
  subst heq
  exact ⟨rfl, rfl, by omega⟩

/-- Decoding stops at the first byte when its continuation bit is clear. -/
theorem decode_cons_stop (b : Nat) (rest : List Nat) (hb : b < 128) :
    Decoder.decode_u64 (b :: rest) = (b, rest) := by
  have h : b / 128 = 0 := Nat.div_eq_of_lt hb
  simp [Decoder.decode_u64, decGo, h, Nat.mod_eq_of_lt hb]

/-- Reading from position 0 of a nonempty file yields its head first. -/
theorem fileRead_cons_zero (a : Nat) (t : List Nat) (n : Nat) :
    fileRead (a :: t) 0 (n + 1) = a :: fileRead t 0 n := by
  simp only [fileRead, List.drop_zero, List.take_succ_cons, List.cons_append,
    List.length_cons, Nat.succ_sub_succ]

/-- `create` on the empty file leaves exactly the one varint byte. -/
theorem create_nil : BlockStorage.create [] = ⟨[1], 1⟩ := by
  show BlockStorage.mk (fileWrite [] 0 (Encoder.encode_u64 1)) 1 = _
  rw [show Encoder.encode_u64 1 = [1] from by decide]
  simp [fileWrite]

/-- A one-byte write at position 0 replaces the head of the file. -/
theorem fileWrite_zero_cons (f : List Nat) (c : Nat) : fileWrite f 0 [c] = c :: f.drop 1 := by
  simp [fileWrite]

/-- `set_len` of a one-byte file zero-extends it. -/
theorem fileSetLen_singleton (a n : Nat) :
    fileSetLen [a] (n + 1) = a :: List.replicate n 0 := by
  simp [fileSetLen]

/-- The positive branch of `claimBlock`, as a rewriting equation. -/
theorem claimBlock_eq (s : BlockStorage) (count : Nat)
    (hguard : (s.meta + count) * BLOCK_SIZE < 2 ^ 64) :
    s.claimBlock count =
      some (⟨fileWrite (fileSetLen s.file ((s.meta + count) * BLOCK_SIZE)) 0
          (Encoder.encode_u64 (s.meta + count)), s.meta + count⟩,
        ⟨s.meta + count - count, count * BLOCK_SIZE⟩) := by
  rw [BlockStorage.claimBlock, if_pos hguard]
  rfl

/-- allocate(0) right after create on the empty file, computed: the file is
zero-extended from one byte to a full block. -/
theorem claim_zero_eq :
    (BlockStorage.create []).claimBlock 0 =
      some (⟨1 :: List.replicate 4095 0, 1⟩, ⟨1, 0⟩) := by
  rw [create_nil, claimBlock_eq ⟨[1], 1⟩ 0 (by decide)]
  rw [show ((⟨[1], 1⟩ : BlockStorage).meta + 0) * BLOCK_SIZE = 4095 + 1 from by decide]
  rw [show ((⟨[1], 1⟩ : BlockStorage).file) = [1] from rfl, fileSetLen_singleton]
  rw [show Encoder.encode_u64 ((⟨[1], 1⟩ : BlockStorage).meta + 0) = [1] from by decide,
    fileWrite_zero_cons]
  rfl

/-! ### Claims -/

/-- C1: decoding the byte sequence produced by encoding any u64 value
returns exactly that value (consuming the whole sequence); 0 encodes to one
byte and `u64::MAX` takes the nine-byte path. -/
theorem C1_roundtrip_u64 (v : Nat) (hv : v < 2 ^ 64) :
    Decoder.decode_u64 (Encoder.encode_u64 v) = (v, []) ∧
    (Encoder.encode_u64 0).length = 1 ∧ (Encoder.encode_u64 (2 ^ 64 - 1)).length = 9 := by
  refine ⟨?_, by decide, by decide⟩
  simpa using decode_encode_append v [] hv

/-- C1 witness: the round trip at `u64::MAX`. -/
theorem C1_witness :
    2 ^ 64 - 1 < 2 ^ 64 ∧
    (Decoder.decode_u64 (Encoder.encode_u64 (2 ^ 64 - 1)) = (2 ^ 64 - 1, []) ∧
      (Encoder.encode_u64 0).length = 1 ∧ (Encoder.encode_u64 (2 ^ 64 - 1)).length = 9) :=
  ⟨by norm_num, C1_roundtrip_u64 (2 ^ 64 - 1) (by norm_num)⟩

/-- C9: the codec is prefix-correct: decoding `encode v ++ rest` returns `v`
and consumes exactly the bytes of `encode v`, leaving `rest` in the
buffer. -/
theorem C9_prefix_correct (v : Nat) (rest : List Nat) (hv : v < 2 ^ 64) :
    Decoder.decode_u64 (Encoder.encode_u64 v ++ rest) = (v, rest) :=
  decode_encode_append v rest hv

/-- C9 witness at value 300 with two trailing bytes. -/
theorem C9_witness :
    300 < 2 ^ 64 ∧
    Decoder.decode_u64 (Encoder.encode_u64 300 ++ [7, 200]) = (300, [7, 200]) :=
  ⟨by norm_num, C9_prefix_correct 300 [7, 200] (by norm_num)⟩

/-- C8: the encoded length is exactly 1 byte below 128, at least 1 and at
most 9 bytes, and monotone in the value. -/
theorem C8_encode_length_minimal (v w : Nat) (hv : v < 2 ^ 64) (hw : w < 2 ^ 64)
    (hvw : v ≤ w) :
    (v < 128 → (Encoder.encode_u64 v).length = 1) ∧
    1 ≤ (Encoder.encode_u64 v).length ∧ (Encoder.encode_u64 v).length ≤ 9 ∧
    (Encoder.encode_u64 v).length ≤ (Encoder.encode_u64 w).length :=
  ⟨fun h => encode_length_eq_one v h, encode_length_pos v, encode_length_le_nine v,
    encode_length_mono v w hvw⟩

/-- C8 witness at 5 and 1000. -/
theorem C8_witness :
    5 < 2 ^ 64 ∧ 1000 < 2 ^ 64 ∧ 5 ≤ 1000 ∧
    ((5 < 128 → (Encoder.encode_u64 5).length = 1) ∧
      1 ≤ (Encoder.encode_u64 5).length ∧ (Encoder.encode_u64 5).length ≤ 9 ∧
      (Encoder.encode_u64 5).length ≤ (Encoder.encode_u64 1000).length) :=
  ⟨by norm_num, by norm_num, by norm_num,
    C8_encode_length_minimal 5 1000 (by norm_num) (by norm_num) (by norm_num)⟩

/-- C4: create initialises the metadata to 1 and persists its varint to the
start of block 0; reopening the same file (no intervening operations)
succeeds with in-memory metadata 1. -/
theorem C4_create_then_reopen (init : List Nat) :
    (BlockStorage.create init).meta = 1 ∧
    (BlockStorage.create init).file.take (Encoder.encode_u64 1).length =
      Encoder.encode_u64 1 ∧
    (BlockStorage.openStorage (BlockStorage.create init).file).meta = 1 := by
  have henc1 : Encoder.encode_u64 1 = [1] := by decide
  have hfile : (BlockStorage.create init).file = 1 :: init.drop 1 := by
    show fileWrite init 0 (Encoder.encode_u64 1) = 1 :: init.drop 1
    rw [henc1]
    simp [fileWrite]
  refine ⟨rfl, ?_, ?_⟩
  · rw [hfile, henc1]
    simp
  · show (Decoder.decode_u64 (fileRead (BlockStorage.create init).file 0 BLOCK_SIZE)).1 = 1
    rw [hfile, show (BLOCK_SIZE : Nat) = 4095 + 1 from rfl, fileRead_cons_zero,
      decode_cons_stop 1 _ (by norm_num)]

/-- C4 witness on the empty file. -/
theorem C4_witness :
    (BlockStorage.create []).meta = 1 ∧
    (BlockStorage.create []).file.take (Encoder.encode_u64 1).length =
      Encoder.encode_u64 1 ∧
    (BlockStorage.openStorage (BlockStorage.create []).file).meta = 1 :=
  C4_create_then_reopen []

/-- C2 counterexample: opening an all-zero file is a single successful open
(a reachable state over arbitrary underlying contents), and it leaves
`next_free_block_index = 0`, violating the claimed invariant `≥ 1`. -/
theorem C2_counterexample :
    ReachableAny (BlockStorage.openStorage (List.replicate BLOCK_SIZE 0)) ∧
    (BlockStorage.openStorage (List.replicate BLOCK_SIZE 0)).meta = 0 := by
  refine ⟨ReachableAny.opened _, ?_⟩
  show (Decoder.decode_u64 (fileRead (List.replicate BLOCK_SIZE 0) 0 BLOCK_SIZE)).1 = 0
  rw [show (BLOCK_SIZE : Nat) = 4095 + 1 from rfl,
    show List.replicate (4095 + 1) (0 : Nat) = 0 :: List.replicate 4095 0 from rfl,
    fileRead_cons_zero, decode_cons_stop 0 _ (by norm_num)]

/-- C2 amended: in every state reachable through successful create,
allocate, write and read operations, and open restricted to files whose
metadata block decodes to at least 1, the in-memory metadata is at least 1
(an open over arbitrary contents can instead yield 0). -/
theorem C2_invariant_amended {s : BlockStorage} (h : ReachableGood s) : 1 ≤ s.meta := by
  induction h with
  | created init => exact Nat.le_refl 1
  | opened init h1 => exact h1
  | allocated htr heq ih =>
    obtain ⟨hmeta, -, -, -, -⟩ := claimBlock_some heq
    omega
  | written htr heq ih =>
    obtain ⟨hmeta, -, -⟩ := writeBlockOffset_ok heq
    omega

/-- C2 witness: the amended invariant at the state created on an empty
file. -/
theorem C2_witness : 1 ≤ (BlockStorage.create []).meta :=
  C2_invariant_amended (ReachableGood.created [])

/-- C3 counterexample: immediately after a successful create on an empty
file (a successful operation, before any allocate) the file is a single
byte long, not a multiple of `BLOCK_SIZE`. -/
theorem C3_counterexample :
    Trace (BlockStorage.create []) [] ∧
    (BlockStorage.create []).file.length = 1 ∧
    (BlockStorage.create []).file.length % BLOCK_SIZE = 1 :=
  ⟨Trace.created, by decide, by decide⟩

/-- C3 amended: for a manager created on an empty file, before the first
allocate the file holds exactly the varint metadata (so its length is the
varint's length, not yet a block multiple); once a run has been allocated,
after every successful operation the file length equals
`next_free_block_index * BLOCK_SIZE` (an exact multiple of `BLOCK_SIZE`)
and block 0 holds the varint metadata followed by zero padding filling the
4096-byte block. -/
theorem C3_file_layout_amended {s : BlockStorage} {bs : List DataBlock} (h : Trace s bs) :
    (s.file = Encoder.encode_u64 s.meta ∧ bs = []) ∨
    (s.file.length = s.meta * BLOCK_SIZE ∧ BLOCK_SIZE ∣ s.file.length ∧
      s.file.take BLOCK_SIZE = Encoder.encode_u64 s.meta ++
        List.replicate (BLOCK_SIZE - (Encoder.encode_u64 s.meta).length) 0) := by
  obtain ⟨hm, -, hdisj⟩ := trace_inv h
  rcases hdisj with ⟨hf, -, hnil⟩ | ⟨hlen, hpre, hzero⟩
  · exact Or.inl ⟨hf, hnil⟩
  refine Or.inr ⟨hlen, ⟨s.meta, by rw [hlen, Nat.mul_comm]⟩, ?_⟩
  have h9 := encode_length_le_nine s.meta
  refine list_eq_of_getD _ _ ?_ ?_
  · rw [List.length_take, hlen, List.length_append, List.length_replicate]
    simp only [BLOCK_SIZE] at *
    omega
  · intro i hi
    rw [List.length_take] at hi
    rw [getD_take, if_pos (by omega), getD_append]
    rcases Nat.lt_or_ge i (Encoder.encode_u64 s.meta).length with hcase | hcase
    · rw [if_pos hcase]
      exact hpre i hcase
    · rw [if_neg (by omega), getD_replicate_zero]
      refine hzero i hcase (by omega)

/-- C3 witness: the amended statement at the freshly created state. -/
theorem C3_witness :
    ((BlockStorage.create []).file = Encoder.encode_u64 (BlockStorage.create []).meta ∧
        ([] : List DataBlock) = []) ∨
    ((BlockStorage.create []).file.length = (BlockStorage.create []).meta * BLOCK_SIZE ∧
      BLOCK_SIZE ∣ (BlockStorage.create []).file.length ∧
      (BlockStorage.create []).file.take BLOCK_SIZE =
        Encoder.encode_u64 (BlockStorage.create []).meta ++
          List.replicate
            (BLOCK_SIZE - (Encoder.encode_u64 (BlockStorage.create []).meta).length) 0) :=
  C3_file_layout_amended Trace.created

/-- C5: a successful allocate(n) returns the run starting at the old
metadata offset with byte size `n * BLOCK_SIZE`, and an immediately
following successful allocate(m) returns the contiguous disjoint run
starting n blocks later. -/
theorem C5_allocate_contiguous (s s' s'' : BlockStorage) (n m : Nat) (b b' : DataBlock)
    (hn : 1 ≤ n) (hm : 1 ≤ m)
    (h1 : s.claimBlock n = some (s', b)) (h2 : s'.claimBlock m = some (s'', b')) :
    b.offset = s.meta ∧ b.size = n * BLOCK_SIZE ∧ b'.offset = b.offset + n ∧
    b'.size = m * BLOCK_SIZE := by
  obtain ⟨hmeta1, -, hb1, hs1, -⟩ := claimBlock_some h1
  obtain ⟨-, -, hb2, hs2, -⟩ := claimBlock_some h2
  exact ⟨hb1, hs1, by omega, hs2⟩

/-- C5 witness: two allocations of one block each after create. -/
theorem C5_witness :
    1 ≤ 1 ∧
    ((⟨1, 4096⟩ : DataBlock).offset = (BlockStorage.create []).meta ∧
      (⟨1, 4096⟩ : DataBlock).size = 1 * BLOCK_SIZE ∧
      (⟨2, 4096⟩ : DataBlock).offset = (⟨1, 4096⟩ : DataBlock).offset + 1 ∧
      (⟨2, 4096⟩ : DataBlock).size = 1 * BLOCK_SIZE) :=
  ⟨le_refl 1,
    C5_allocate_contiguous (BlockStorage.create []) _ _ 1 1 ⟨1, 4096⟩ ⟨2, 4096⟩
      (le_refl 1) (le_refl 1) (claimBlock_eq (BlockStorage.create []) 1 (by decide))
      (claimBlock_eq _ 1 (by decide))⟩

/-- C6: for u64-representable `offset + len(data)`, a write fails with the
capacity-violation error (distinct from an I/O error, and with the state
untouched) exactly when `offset + len(data)` exceeds the run's byte
size. -/
theorem C6_write_capacity (s : BlockStorage) (b : DataBlock) (offset : Nat)
    (data : List Nat) (hov : data.length + offset < 2 ^ 64) :
    ((∃ t, s.writeBlockOffset b offset data = some (Except.error WriteError.capacity, t)) ↔
      b.size < offset + data.length) ∧
    (∀ t, s.writeBlockOffset b offset data = some (Except.error WriteError.capacity, t) →
      t = s) := by
  rw [BlockStorage.writeBlockOffset, if_neg (by omega)]
  by_cases hcap : b.size < data.length + offset
  · rw [if_pos hcap]
    refine ⟨⟨fun _ => by omega, fun _ => ⟨s, rfl⟩⟩, ?_⟩
    intro t ht
    simp only [Option.some.injEq, Prod.mk.injEq] at ht
    exact ht.2.symm
  · rw [if_neg hcap]
    have herr : ∀ t, ¬ (if 2 ^ 64 ≤ b.offset * BLOCK_SIZE + offset then none
        else some (Except.ok (), s.writeFlush (b.offset * BLOCK_SIZE + offset) data)) =
          some (Except.error WriteError.capacity, t) := by
      intro t
      by_cases hpos : 2 ^ 64 ≤ b.offset * BLOCK_SIZE + offset
      · rw [if_pos hpos]
        simp
      · rw [if_neg hpos]
        simp
    refine ⟨⟨fun hex => ?_, fun hlt => by omega⟩, fun t ht => absurd ht (herr t)⟩
    obtain ⟨t, ht⟩ := hex
    exact absurd ht (herr t)

/-- C6 witness: a two-byte write at offset 4095 of a 4096-byte run fails
with the capacity error and leaves the state unchanged. -/
theorem C6_witness :
    ([0, 0] : List Nat).length + 4095 < 2 ^ 64 ∧
    (((∃ t, (BlockStorage.create []).writeBlockOffset ⟨1, 4096⟩ 4095 [0, 0] =
          some (Except.error WriteError.capacity, t)) ↔
        (⟨1, 4096⟩ : DataBlock).size < 4095 + ([0, 0] : List Nat).length) ∧
      (∀ t, (BlockStorage.create []).writeBlockOffset ⟨1, 4096⟩ 4095 [0, 0] =
          some (Except.error WriteError.capacity, t) → t = BlockStorage.create [])) :=
  ⟨by decide, C6_write_capacity (BlockStorage.create []) ⟨1, 4096⟩ 4095 [0, 0] (by decide)⟩

/-- C7: reads perform no bounds check against the run's byte size: for any
run handle, offset and length (with a u64-representable position) the read
succeeds and returns exactly `maxLength` bytes, the prefix up to
end-of-file copied from the file at the absolute position and the tail
past end-of-file zero-filled; in particular reading a freshly allocated,
never-written run returns all zeros. -/
theorem C7_read_unchecked :
    (∀ (s : BlockStorage) (b : DataBlock) (offset maxLength : Nat),
      b.offset * BLOCK_SIZE + offset < 2 ^ 64 →
      ∃ out, s.readBlockOffset b offset maxLength = some out ∧
        out.length = maxLength ∧
        (∀ i, i < maxLength → b.offset * BLOCK_SIZE + offset + i < s.file.length →
          out.getD i 0 = s.file.getD (b.offset * BLOCK_SIZE + offset + i) 0) ∧
        (∀ i, i < maxLength → s.file.length ≤ b.offset * BLOCK_SIZE + offset + i →
          out.getD i 0 = 0)) ∧
    (∀ (s s' : BlockStorage) (bs : List DataBlock) (count : Nat) (b : DataBlock),
      Trace s bs → s.claimBlock count = some (s', b) →
      s'.readBlock b = some (List.replicate b.size 0)) := by
  constructor
  · intro s b offset maxLength hpos
    refine ⟨fileRead s.file (b.offset * BLOCK_SIZE + offset) maxLength, ?_, ?_, ?_, ?_⟩
    · rw [BlockStorage.readBlockOffset, if_pos hpos]
      rfl
    · exact fileRead_length _ _ _
    · intro i hi hlt
      rw [fileRead_getD, if_pos hi]
    · intro i hi hge
      rw [fileRead_getD, if_pos hi]
      exact List.getD_eq_default _ _ hge
  · intro s s' bs count b htr heq
    obtain ⟨hm, -, hdisj⟩ := trace_inv htr
    obtain ⟨hmeta, hfile, hboff, hbsize, hguard⟩ := claimBlock_some heq
    have h9 := encode_length_le_nine (s.meta + count)
    have hflen : s.file.length ≤ s.meta * BLOCK_SIZE := by
      rcases hdisj with ⟨hf, hm1, -⟩ | ⟨hlen, -, -⟩
      · rw [hf, hm1]
        have h91 := encode_length_le_nine 1
        simp only [BLOCK_SIZE] at *
        omega
      · omega
    rw [BlockStorage.readBlock, BlockStorage.readBlockOffset, if_pos (by
      simp only [BLOCK_SIZE] at hguard ⊢
      omega)]
    rw [BlockStorage.readData]
    congr 1
    refine list_eq_of_getD _ _ ?_ ?_
    · rw [fileRead_length, List.length_replicate]
    · intro i hi
      rw [fileRead_length] at hi
      rw [fileRead_getD, if_pos hi, getD_replicate_zero, hfile, fileWrite_getD,
        if_neg (by
          simp only [BLOCK_SIZE] at *
          omega),
        fileSetLen_getD, if_pos (by
          simp only [BLOCK_SIZE] at *
          omega)]
      refine List.getD_eq_default _ _ (by
        simp only [BLOCK_SIZE] at *
        omega)

/-- C7 witness: a full-block read right after create, and an all-zero read
of the first allocated run. -/
theorem C7_witness :
    ((1 : Nat) * BLOCK_SIZE + 0 < 2 ^ 64 ∧
      (∃ out, (BlockStorage.create []).readBlockOffset ⟨1, 4096⟩ 0 4096 = some out ∧
        out.length = 4096 ∧
        (∀ i, i < 4096 → (1 : Nat) * BLOCK_SIZE + 0 + i <
            (BlockStorage.create []).file.length →
          out.getD i 0 =
            (BlockStorage.create []).file.getD ((1 : Nat) * BLOCK_SIZE + 0 + i) 0) ∧
        (∀ i, i < 4096 →
          (BlockStorage.create []).file.length ≤ (1 : Nat) * BLOCK_SIZE + 0 + i →
          out.getD i 0 = 0))) ∧
    ((BlockStorage.create []).claimBlock 1 =
        some (⟨fileWrite (fileSetLen (BlockStorage.create []).file
              (((BlockStorage.create []).meta + 1) * BLOCK_SIZE)) 0
              (Encoder.encode_u64 ((BlockStorage.create []).meta + 1)),
            (BlockStorage.create []).meta + 1⟩,
          ⟨1, 4096⟩) ∧
      BlockStorage.readBlock
          ⟨fileWrite (fileSetLen (BlockStorage.create []).file
              (((BlockStorage.create []).meta + 1) * BLOCK_SIZE)) 0
              (Encoder.encode_u64 ((BlockStorage.create []).meta + 1)),
            (BlockStorage.create []).meta + 1⟩ ⟨1, 4096⟩ =
        some (List.replicate (⟨1, 4096⟩ : DataBlock).size 0)) :=
  ⟨⟨by decide,
      C7_read_unchecked.1 (BlockStorage.create []) ⟨1, 4096⟩ 0 4096 (by decide)⟩,
    ⟨claimBlock_eq (BlockStorage.create []) 1 (by decide),
      C7_read_unchecked.2 (BlockStorage.create []) _ [] 1 ⟨1, 4096⟩ Trace.created
        (claimBlock_eq (BlockStorage.create []) 1 (by decide))⟩⟩

/-- C10 counterexample: allocate(0) right after create on an empty file
succeeds, but it is not a state no-op: the file length changes from 1 to
4096 (the `set_len` to `next_free_block_index * BLOCK_SIZE` is not a
resize to the current length there). -/
theorem C10_counterexample :
    (BlockStorage.create []).claimBlock 0 =
      some (⟨1 :: List.replicate 4095 0, 1⟩, ⟨1, 0⟩) ∧
    (BlockStorage.create []).file.length = 1 ∧
    (1 :: List.replicate 4095 0 : List Nat).length = 4096 :=
  ⟨claim_zero_eq, by decide, by rw [List.length_cons, List.length_replicate]⟩

/-- C10 amended: a successful allocate(0) leaves the metadata unchanged,
resizes the file to `next_free_block_index * BLOCK_SIZE` (which preserves
the length exactly when the length already has that value, e.g. after any
earlier allocate, but not immediately after create), and returns the
zero-capacity run starting at the current metadata offset, into which
every nonempty write fails with the capacity violation. -/
theorem C10_allocate_zero_amended (s s' : BlockStorage) (b : DataBlock)
    (hm : 1 ≤ s.meta) (h : s.claimBlock 0 = some (s', b)) :
    s'.meta = s.meta ∧ s'.file.length = s.meta * BLOCK_SIZE ∧
    (s.file.length = s.meta * BLOCK_SIZE → s'.file.length = s.file.length) ∧
    b.offset = s.meta ∧ b.size = 0 ∧
    (∀ (offset : Nat) (data : List Nat), data ≠ [] → data.length + offset < 2 ^ 64 →
      s'.writeBlockOffset b offset data = some (Except.error WriteError.capacity, s')) := by
  obtain ⟨hmeta, hfile, hboff, hbsize, hguard⟩ := claimBlock_some h
  have hbsize0 : b.size = 0 := by simpa using hbsize
  have hlen' : s'.file.length = s.meta * BLOCK_SIZE := by
    rw [hfile, fileWrite_length, fileSetLen_length]
    have h9 := encode_length_le_nine (s.meta + 0)
    simp only [BLOCK_SIZE] at *
    omega
  refine ⟨by omega, hlen', fun hcur => by rw [hlen', hcur], hboff, hbsize0, ?_⟩
  intro offset data hne hov
  have hdata : 1 ≤ data.length := by
    cases data with
    | nil => exact absurd rfl hne
    | cons a t => simp
  rw [BlockStorage.writeBlockOffset, if_neg (by omega), if_pos (by omega)]

/-- C10 witness: allocate(0) after create on the empty file, and a
one-byte write into the returned empty run failing with the capacity
error. -/
theorem C10_witness :
    1 ≤ (BlockStorage.create []).meta ∧
    ((BlockStorage.mk (1 :: List.replicate 4095 0) 1).meta = (BlockStorage.create []).meta ∧
      (BlockStorage.mk (1 :: List.replicate 4095 0) 1).file.length =
        (BlockStorage.create []).meta * BLOCK_SIZE ∧
      ((BlockStorage.create []).file.length = (BlockStorage.create []).meta * BLOCK_SIZE →
        (BlockStorage.mk (1 :: List.replicate 4095 0) 1).file.length =
          (BlockStorage.create []).file.length) ∧
      (⟨1, 0⟩ : DataBlock).offset = (BlockStorage.create []).meta ∧
      (⟨1, 0⟩ : DataBlock).size = 0 ∧
      (∀ (offset : Nat) (data : List Nat), data ≠ [] → data.length + offset < 2 ^ 64 →
        (BlockStorage.mk (1 :: List.replicate 4095 0) 1).writeBlockOffset ⟨1, 0⟩ offset
            data =
          some (Except.error WriteError.capacity,
            BlockStorage.mk (1 :: List.replicate 4095 0) 1))) :=
  ⟨by decide,
    C10_allocate_zero_amended (BlockStorage.create [])
      (BlockStorage.mk (1 :: List.replicate 4095 0) 1) ⟨1, 0⟩ (by decide) claim_zero_eq⟩

end Leafless
